import Mathlib

/-!
Verification of the Baselight-to-Xytech import/export pipeline
(`project1_import_export_final.py` and `check_x.py`).

Python strings are modelled as `List Char` (`Str`); Python `int` as `Int`
(frame values) or `Nat` (counters, line numbers); fallible code (unguarded
indexing, missing files) as `Option`/`Except`.  File reads are modelled by
passing the file's line list plus an existence flag.
-/

namespace Project1

/-- A Python string, modelled as its list of characters. -/
abbrev Str := List Char

/-- Convert a Lean string literal to the `Str` model. -/
def strOf (s : String) : Str := s.toList

/-- The whitespace set recognised by Python's `str.strip()` / `str.split()`
(ASCII portion: space, tab, newline, carriage return, vertical tab, form feed). -/
def isSpace (c : Char) : Bool :=
  c = ' ' || c = '\t' || c = '\n' || c = '\r' || c = Char.ofNat 11 || c = Char.ofNat 12

/-- Python `s.strip()`: drop leading and trailing whitespace. -/
def pyStrip (s : Str) : Str :=
  (((s.dropWhile isSpace).reverse).dropWhile isSpace).reverse

/-- Python `s.lower()` (ASCII model). -/
def lowerStr (s : Str) : Str := s.map Char.toLower

/-- Python `s.upper()` (ASCII model). -/
def upperStr (s : Str) : Str := s.map Char.toUpper

/-- Helper of `pySplitWs`: `cur` is the reversed current token. -/
def splitWsAux (cur : Str) : Str → List Str
  | [] => if cur.isEmpty then [] else [cur.reverse]
  | c :: rest =>
    if isSpace c then
      if cur.isEmpty then splitWsAux [] rest
      else cur.reverse :: splitWsAux [] rest
    else splitWsAux (c :: cur) rest

/-- Python `s.split()` with no argument: split on whitespace runs, dropping
empty tokens. -/
def pySplitWs (s : Str) : List Str := splitWsAux [] s

/-- Python `s.split("/")`: split at every slash, keeping empty components. -/
def splitSlash : Str → List Str
  | [] => [[]]
  | c :: rest =>
    if c = '/' then [] :: splitSlash rest
    else
      match splitSlash rest with
      | [] => [[c]]
      | t :: ts => (c :: t) :: ts

/-- Python `"/".join(parts)`. -/
def joinSlash : List Str → Str
  | [] => []
  | [s] => s
  | s :: rest => s ++ '/' :: joinSlash rest

/-- Python `s.endswith(suf)`: exact trailing character-sequence test. -/
def strEndsWith (s suf : Str) : Bool := suf.isSuffixOf s

/-- Python `s.isdigit()` (ASCII model): nonempty and all decimal digits. -/
def pyIsDigit (s : Str) : Bool := !s.isEmpty && s.all Char.isDigit

/-- Decimal value of a digit string (used for Python `int(...)`). -/
def digitsToNat (ds : Str) : Nat := ds.foldl (fun n c => n * 10 + (c.toNat - 48)) 0

/-- Python `str(n)` for a natural number. -/
def pyStrNat (n : Nat) : Str := Nat.toDigits 10 n

/-- Python `str(n)` for an integer. -/
def pyStrInt (n : Int) : Str :=
  if n < 0 then '-' :: pyStrNat (-n).toNat else pyStrNat n.toNat

/-- The `f"{start}-{prev}"` string of the source. -/
def rangeStr (a b : Int) : Str := pyStrInt a ++ '-' :: pyStrInt b

/- ## Location Directory Parser (`parse_xytech_locations`) -/

/-- The literal `"location"` header token. -/
def locTok : Str := strOf "location"

/-- The literal `"notes"` terminator token. -/
def notesTok : Str := strOf "notes"

/-- The loop of `parse_xytech_locations`: `inLoc` is the `in_locations` flag.
Per line: skip blanks; a `location` header (case-insensitive) sets the flag and
is consumed; while the flag is set, a `notes` line stops the scan and a line
starting with `/` is collected verbatim (post-strip). -/
def locationsGo : List Str → Bool → List Str
  | [], _ => []
  | raw :: rest, inLoc =>
    let line := pyStrip raw
    if line.isEmpty then locationsGo rest inLoc
    else if locTok.isPrefixOf (lowerStr line) then locationsGo rest true
    else if inLoc then
      if notesTok.isPrefixOf (lowerStr line) then []
      else if (strOf "/").isPrefixOf line then line :: locationsGo rest inLoc
      else locationsGo rest inLoc
    else locationsGo rest inLoc

/-- Embedding of `parse_xytech_locations`, over the file's list of raw lines. -/
def parse_xytech_locations (lines : List Str) : List Str :=
  locationsGo lines false

/-- A raw line whose trimmed content starts case-insensitively with `location`. -/
def isLocHeaderLine (raw : Str) : Bool := locTok.isPrefixOf (lowerStr (pyStrip raw))

/-- A raw line whose trimmed content starts case-insensitively with `notes`. -/
def isNotesLine (raw : Str) : Bool := notesTok.isPrefixOf (lowerStr (pyStrip raw))

/-- A raw line whose trimmed content starts with `/`. -/
def isSlashLine (raw : Str) : Bool := (strOf "/").isPrefixOf (pyStrip raw)

/-- The Location Directory Parser contract as worded by the spec: drop lines up
to the first `location` header (empty result if none), then over the lines up to
the first `notes` line keep exactly the trimmed lines starting with `/`,
in order, verbatim. -/
def locationsSpec (lines : List Str) : List Str :=
  match lines.dropWhile (fun r => !isLocHeaderLine r) with
  | [] => []
  | _ :: rest => ((rest.takeWhile (fun r => !isNotesLine r)).filter isSlashLine).map pyStrip

/- ## Path Reconciler (`baselight_subpath`, `map_to_xytech`) -/

/-- The fixed filesystem-root token tested by `baselight_subpath`. -/
def rootTok : Str := strOf "baselightfilesystem"

/-- Embedding of `baselight_subpath`: strip, split on `/`; with at least 3 components whose
second starts with the root token, drop the first two and rejoin with a leading
`/`; otherwise drop only the first and rejoin with a leading `/`. -/
def baselight_subpath (folder : Str) : Str :=
  let parts := splitSlash (pyStrip folder)
  if decide (3 ≤ parts.length) && rootTok.isPrefixOf (parts.getD 1 []) then
    '/' :: joinSlash (parts.drop 2)
  else
    '/' :: joinSlash (parts.drop 1)

/-- Embedding of `map_to_xytech`: first Location (in list order) ending with the derived
subpath, else `none`. -/
def map_to_xytech (folder : Str) (xyLocs : List Str) : Option Str :=
  xyLocs.find? (fun loc => strEndsWith loc (baselight_subpath folder))

/- ## Frame Record Parser (`parse_baselight_line`) -/

/-- Conversion of one frame token: `int(tok)` when it is purely decimal digits,
else the value of its leading digit run (`re.match` of one-or-more digits),
else nothing. -/
def tokenToFrame (tok : Str) : Option Int :=
  if pyIsDigit tok then some ((digitsToNat tok : Nat) : Int)
  else
    match tok.takeWhile Char.isDigit with
    | [] => none
    | ds => some ((digitsToNat ds : Nat) : Int)

/-- Embedding of `parse_baselight_line`: split on whitespace; the unguarded `tokens[0]` is
modelled by `none` on an empty token list (Python raises there); remaining
tokens convert via `tokenToFrame`, dropped when that yields nothing. -/
def parse_baselight_line (line : Str) : Option (Str × List Int) :=
  match pySplitWs line with
  | [] => none
  | folder :: rest => some (folder, rest.filterMap tokenToFrame)

/- ## Range Compressor (`frames_to_segments`) -/

/-- Python `sorted(set(frames))`. -/
def dedupSort (frames : List Int) : List Int :=
  frames.toFinset.sort (· ≤ ·)

/-- The emission loop of `frames_to_segments` over the sorted deduplicated
tail, carrying the current run's `[start, prev]`; returns (segments, singles,
ranges) exactly as the Python loop plus its final flush. -/
def segLoop (start prev : Int) : List Int → List Str × Nat × Nat
  | [] =>
    if start = prev then ([pyStrInt start], 1, 0)
    else ([rangeStr start prev], 0, 1)
  | f :: rest =>
    if f = prev + 1 then segLoop start f rest
    else
      let r := segLoop f f rest
      if start = prev then (pyStrInt start :: r.1, r.2.1 + 1, r.2.2)
      else (rangeStr start prev :: r.1, r.2.1, r.2.2 + 1)

/-- Embedding of `frames_to_segments`: deduplicate and sort, then coalesce runs. -/
def frames_to_segments (frames : List Int) : List Str × Nat × Nat :=
  match dedupSort frames with
  | [] => ([], 0, 0)
  | f :: rest => segLoop f f rest

/-- The same loop, keeping each run's numeric endpoints `(start, prev)`
instead of its rendered string. -/
def pairLoop (start prev : Int) : List Int → List (Int × Int)
  | [] => [(start, prev)]
  | f :: rest =>
    if f = prev + 1 then pairLoop start f rest
    else (start, prev) :: pairLoop f f rest

/-- The numeric segment endpoints emitted by `frames_to_segments`. -/
def segPairs (frames : List Int) : List (Int × Int) :=
  match dedupSort frames with
  | [] => []
  | f :: rest => pairLoop f f rest

/-- Rendering of one numeric segment as the source renders it. -/
def renderSeg (p : Int × Int) : Str :=
  if p.1 = p.2 then pyStrInt p.1 else rangeStr p.1 p.2

/-- The integers covered by one segment, in ascending order. -/
def expandP (p : Int × Int) : List Int :=
  (List.range ((p.2 - p.1).toNat + 1)).map (fun (i : Nat) => p.1 + (i : Int))

/- ## Frame Aggregator (main loop) -/

/-- The aggregation key of one facility folder: the reconciled Location when
one matches, else the sentinel `"X "` prepended to the raw folder. -/
def outFolderKey (xyLocs : List Str) (bFolder : Str) : Str :=
  match map_to_xytech bFolder xyLocs with
  | some c => c
  | none => 'X' :: ' ' :: bFolder

/-- Python-dict-with-order-list update: extend the frame list of an existing
key in place, or append a new key at the end. -/
def upsertFrames (tbl : List (Str × List Int)) (k : Str) (fs : List Int) :
    List (Str × List Int) :=
  match tbl with
  | [] => [(k, fs)]
  | (k', v) :: rest =>
    if k' = k then (k', v ++ fs) :: rest else (k', v) :: upsertFrames rest k fs

/-- One iteration of the main aggregation loop: skip blank lines, otherwise
parse, reconcile, and accumulate under the folder key; `none` models the
uncaught exception of a failed parse. -/
def processLine (xyLocs : List Str) (tbl : List (Str × List Int)) (raw : Str) :
    Option (List (Str × List Int)) :=
  let line := pyStrip raw
  if line.isEmpty then some tbl
  else
    match parse_baselight_line line with
    | none => none
    | some (bFolder, frames) =>
      some (upsertFrames tbl (outFolderKey xyLocs bFolder) frames)

/-- The whole aggregation pass of `main` over the facility export's lines. -/
def aggregate (xyLocs : List Str) (lines : List Str) :
    Option (List (Str × List Int)) :=
  lines.foldl (fun acc raw => acc.bind (fun tbl => processLine xyLocs tbl raw)) (some [])

/-- The aggregation key determined by one stripped nonblank facility line:
its first whitespace token, reconciled. -/
def keyOf (xyLocs : List Str) (line : Str) : Str :=
  outFolderKey xyLocs ((pySplitWs line).headD [])

/-- Helper of `firstSeen`: keep the keys not yet in `seen`, in order, once. -/
def firstSeenFrom (seen : List Str) : List Str → List Str
  | [] => []
  | k :: ks =>
    if k ∈ seen then firstSeenFrom seen ks
    else k :: firstSeenFrom (k :: seen) ks

/-- First-occurrence subsequence of a key sequence. -/
def firstSeen (ks : List Str) : List Str := firstSeenFrom [] ks

/-- The sequence of aggregation keys produced by the facility export's
nonblank lines, in input order (one entry per line, duplicates kept). -/
def keySeq (xyLocs : List Str) (lines : List Str) : List Str :=
  ((lines.map pyStrip).filter (fun l => !l.isEmpty)).map (keyOf xyLocs)

/-- The CSV data rows written by `main`: per folder in first-seen order, one
row per segment, with a blank Mark column. -/
def reportRows (tbl : List (Str × List Int)) : List (List Str) :=
  tbl.flatMap (fun kv => ((frames_to_segments kv.2).1).map (fun seg => [kv.1, seg, []]))

/- ## Annotation Scanner (`print_rows_with_x_third_col`, `check_x.py`) -/

/-- The marked-row test: at least three columns and the third trims and
uppercases to exactly `X`. -/
def markedRow (row : List Str) : Bool :=
  decide (3 ≤ row.length) && decide (upperStr (pyStrip (row.getD 2 [])) = strOf "X")

/-- The scan loop over the data rows, carrying the 1-based line number
(the header is line 1, so the first data row is line 2). -/
def scanGo : List (List Str) → Nat → List (Nat × List Str)
  | [], _ => []
  | row :: rest, n =>
    if markedRow row then (n, row) :: scanGo rest (n + 1)
    else scanGo rest (n + 1)

/-- The matched rows of the scanner, with their 1-based line numbers; an empty
file has no header (`next(reader, None)` yields nothing) and no matches. -/
def scanMarked (rows : List (List Str)) : List (Nat × List Str) :=
  match rows with
  | [] => []
  | _hdr :: rest => scanGo rest 2

/-- Observable outcome of `print_rows_with_x_third_col`. -/
inductive ScanResult
  | missing
  | scanned (hits : List (Nat × List Str)) (found : Bool)
deriving DecidableEq

/-- Embedding of `print_rows_with_x_third_col` with the file modelled as an existence flag
plus parsed CSV rows: a missing file is reported and nothing is read; otherwise
the matched rows (and whether any was found) are reported. -/
def print_rows_model (ex : Bool) (rows : List (List Str)) : ScanResult :=
  if !ex then ScanResult.missing
  else ScanResult.scanned (scanMarked rows) (!(scanMarked rows).isEmpty)

/-- A file read: the content when the file exists, an error (uncaught
exception) when it does not. -/
def readFile (ex : Bool) (content : List Str) : Except Unit (List Str) :=
  match ex with
  | true => Except.ok content
  | false => Except.error ()

/-- Embedding of `main`, end to end: read both primary inputs (fatal when missing),
aggregate, emit the report rows, then run the annotation scan on the
separately-supplied marked file. -/
def mainModel (xyEx : Bool) (xyLines : List Str) (blEx : Bool) (blLines : List Str)
    (markedEx : Bool) (marked : List (List Str)) :
    Except Unit (List (List Str) × ScanResult) :=
  match readFile xyEx xyLines with
  | Except.error e => Except.error e
  | Except.ok xyText =>
    match readFile blEx blLines with
    | Except.error e => Except.error e
    | Except.ok blText =>
      match aggregate (parse_xytech_locations xyText) blText with
      | none => Except.error ()
      | some tbl => Except.ok (reportRows tbl, print_rows_model markedEx marked)

/- ## Lemmas: Range Compressor -/

theorem mem_dedupSort (l : List Int) (v : Int) : v ∈ dedupSort l ↔ v ∈ l := by
  simp [dedupSort, Finset.mem_sort, List.mem_toFinset]

theorem sorted_dedupSort (l : List Int) : (dedupSort l).Sorted (· < ·) :=
  Finset.sort_sorted_lt _

theorem mem_expandP {v : Int} (p : Int × Int) (hab : p.1 ≤ p.2) :
    v ∈ expandP p ↔ p.1 ≤ v ∧ v ≤ p.2 := by
  simp only [expandP, List.mem_map, List.mem_range]
  constructor
  · rintro ⟨i, hi, rfl⟩
    omega
  · rintro ⟨h1, h2⟩
    exact ⟨(v - p.1).toNat, by omega, by omega⟩

theorem expandP_self (a : Int) : expandP (a, a) = [a] := by
  simp only [expandP, sub_self, Int.toNat_zero, Nat.zero_add,
    List.range_succ, List.range_zero, List.nil_append, List.map_cons, List.map_nil,
    Nat.cast_zero, add_zero]

theorem expandP_snoc {a b : Int} (hab : a ≤ b) :
    expandP (a, b + 1) = expandP (a, b) ++ [b + 1] := by
  have h : (b + 1 - a).toNat + 1 = ((b - a).toNat + 1) + 1 := by omega
  simp only [expandP]
  rw [h, List.range_succ, List.map_append]
  simp only [List.map_cons, List.map_nil]
  congr 2
  omega

theorem pairLoop_le (l : List Int) : ∀ start prev : Int, start ≤ prev →
    List.Chain (· < ·) prev l →
    ∀ p ∈ pairLoop start prev l, start ≤ p.1 ∧ p.1 ≤ p.2 := by
  induction l with
  | nil =>
    intro start prev h _ p hp
    simp only [pairLoop, List.mem_singleton] at hp
    subst hp
    exact ⟨le_refl _, h⟩
  | cons f rest ih =>
    intro start prev h hchain p hp
    rw [List.chain_cons] at hchain
    obtain ⟨hlt, hchain'⟩ := hchain
    simp only [pairLoop] at hp
    by_cases hf : f = prev + 1
    · rw [if_pos hf] at hp
      exact ih start f (by omega) hchain' p hp
    · rw [if_neg hf] at hp
      rcases List.mem_cons.mp hp with h1 | h2
      · subst h1; exact ⟨le_refl _, h⟩
      · obtain ⟨ha, hb⟩ := ih f f (le_refl f) hchain' p h2
        exact ⟨by omega, hb⟩

theorem pairLoop_sep (l : List Int) : ∀ start prev : Int, start ≤ prev →
    List.Chain (· < ·) prev l →
    (pairLoop start prev l).Pairwise (fun p q => p.2 + 1 < q.1) := by
  induction l with
  | nil => intro start prev _ _; simp [pairLoop]
  | cons f rest ih =>
    intro start prev h hchain
    rw [List.chain_cons] at hchain
    obtain ⟨hlt, hchain'⟩ := hchain
    simp only [pairLoop]
    by_cases hf : f = prev + 1
    · rw [if_pos hf]
      exact ih start f (by omega) hchain'
    · rw [if_neg hf]
      refine List.Pairwise.cons ?_ (ih f f (le_refl f) hchain')
      intro q hq
      obtain ⟨h1, h2⟩ := pairLoop_le rest f f (le_refl f) hchain' q hq
      omega

theorem pairLoop_expand (l : List Int) : ∀ start prev : Int, start ≤ prev →
    List.Chain (· < ·) prev l →
    ((pairLoop start prev l).map expandP).flatten = expandP (start, prev) ++ l := by
  induction l with
  | nil => intro start prev _ _; simp [pairLoop]
  | cons f rest ih =>
    intro start prev h hchain
    rw [List.chain_cons] at hchain
    obtain ⟨hlt, hchain'⟩ := hchain
    simp only [pairLoop]
    by_cases hf : f = prev + 1
    · rw [if_pos hf, ih start f (by omega) hchain',
        show f = prev + 1 from hf, expandP_snoc h]
      simp
    · rw [if_neg hf]
      simp only [List.map_cons, List.flatten_cons,
        ih f f (le_refl f) hchain', expandP_self]
      simp

theorem segPairs_le (l : List Int) : ∀ p ∈ segPairs l, p.1 ≤ p.2 := by
  intro p hp
  unfold segPairs at hp
  rcases hd : dedupSort l with _ | ⟨f, rest⟩
  · rw [hd] at hp; simp at hp
  · rw [hd] at hp
    have hs : List.Pairwise (· < ·) (f :: rest) := by
      have := sorted_dedupSort l; rw [hd] at this; exact this
    have hchain : List.Chain (· < ·) f rest :=
      List.chain_iff_pairwise.mpr hs
    exact (pairLoop_le rest f f (le_refl f) hchain p hp).2

theorem segPairs_sep (l : List Int) :
    (segPairs l).Pairwise (fun p q => p.2 + 1 < q.1) := by
  unfold segPairs
  rcases hd : dedupSort l with _ | ⟨f, rest⟩
  · simp
  · have hs : List.Pairwise (· < ·) (f :: rest) := by
      have := sorted_dedupSort l; rw [hd] at this; exact this
    exact pairLoop_sep rest f f (le_refl f) (List.chain_iff_pairwise.mpr hs)

theorem segPairs_expand (l : List Int) :
    ((segPairs l).map expandP).flatten = dedupSort l := by
  unfold segPairs
  rcases hd : dedupSort l with _ | ⟨f, rest⟩
  · simp
  · have hs : List.Pairwise (· < ·) (f :: rest) := by
      have := sorted_dedupSort l; rw [hd] at this; exact this
    rw [pairLoop_expand rest f f (le_refl f) (List.chain_iff_pairwise.mpr hs),
      expandP_self]
    simp

theorem mem_segPairs_cover {l : List Int} {v : Int} :
    v ∈ l ↔ ∃ p ∈ segPairs l, p.1 ≤ v ∧ v ≤ p.2 := by
  rw [← mem_dedupSort, ← segPairs_expand]
  simp only [List.mem_flatten, List.mem_map]
  constructor
  · rintro ⟨s, ⟨p, hp, rfl⟩, hv⟩
    exact ⟨p, hp, (mem_expandP p (segPairs_le l p hp)).mp hv⟩
  · rintro ⟨p, hp, h1, h2⟩
    exact ⟨expandP p, ⟨p, hp, rfl⟩, (mem_expandP p (segPairs_le l p hp)).mpr ⟨h1, h2⟩⟩

theorem countP_le_one_of_pairwise {α : Type} {f : α → Bool} {l : List α}
    (h : l.Pairwise (fun p q => ¬(f p = true ∧ f q = true))) : l.countP f ≤ 1 := by
  induction l with
  | nil => simp
  | cons a t ih =>
    rw [List.pairwise_cons] at h
    obtain ⟨ha, ht⟩ := h
    rw [List.countP_cons]
    by_cases hfa : f a = true
    · have hz : t.countP f = 0 := by
        rw [List.countP_eq_zero]
        intro x hx hfx
        exact ha x hx ⟨hfa, hfx⟩
      simp [hz, hfa]
    · simp only [hfa, if_false]
      exact Nat.le_trans (Nat.le_of_eq (Nat.add_zero _)) (ih ht)

theorem pairwise_mem_or {α : Type} {R : α → α → Prop} {l : List α}
    (h : l.Pairwise R) : ∀ {p q : α}, p ∈ l → q ∈ l → p = q ∨ R p q ∨ R q p := by
  induction h with
  | nil => intro p q hp _; simp at hp
  | cons ha _ ih =>
    intro p q hp hq
    rcases List.mem_cons.mp hp with rfl | hp' <;> rcases List.mem_cons.mp hq with rfl | hq'
    · exact Or.inl rfl
    · exact Or.inr (Or.inl (ha _ hq'))
    · exact Or.inr (Or.inr (ha _ hp'))
    · exact ih hp' hq'

theorem segPairs_count_one {l : List Int} {v : Int} (hv : v ∈ l) :
    (segPairs l).countP (fun p => decide (p.1 ≤ v ∧ v ≤ p.2)) = 1 := by
  have hpos : 0 < (segPairs l).countP (fun p => decide (p.1 ≤ v ∧ v ≤ p.2)) := by
    rw [List.countP_pos_iff]
    obtain ⟨p, hp, h⟩ := mem_segPairs_cover.mp hv
    exact ⟨p, hp, by simpa using h⟩
  have hle : (segPairs l).countP (fun p => decide (p.1 ≤ v ∧ v ≤ p.2)) ≤ 1 := by
    refine countP_le_one_of_pairwise ((segPairs_sep l).imp ?_)
    intro p q hpq hcon
    obtain ⟨h1, h2⟩ := hcon
    simp only [decide_eq_true_eq] at h1 h2
    omega
  omega

theorem segPairs_starts_sorted (l : List Int) :
    ((segPairs l).map Prod.fst).Sorted (· < ·) := by
  have : ((segPairs l).map Prod.fst).Pairwise (· < ·) := by
    rw [List.pairwise_map]
    refine (segPairs_sep l).imp_of_mem ?_
    intro p q hp _ hpq
    have h1 := segPairs_le l p hp
    omega
  exact this

theorem segLoop_eq (l : List Int) : ∀ start prev : Int,
    segLoop start prev l =
      ((pairLoop start prev l).map renderSeg,
       (pairLoop start prev l).countP (fun p => decide (p.1 = p.2)),
       (pairLoop start prev l).countP (fun p => decide (p.1 ≠ p.2))) := by
  induction l with
  | nil =>
    intro start prev
    by_cases h : start = prev <;>
      simp [segLoop, pairLoop, renderSeg, h]
  | cons f rest ih =>
    intro start prev
    by_cases hf : f = prev + 1
    · simp only [segLoop, pairLoop, if_pos hf]
      exact ih start f
    · by_cases h : start = prev <;>
        simp [segLoop, pairLoop, hf, h, ih, renderSeg, List.countP_cons]

theorem frames_to_segments_eq (l : List Int) :
    frames_to_segments l =
      ((segPairs l).map renderSeg,
       (segPairs l).countP (fun p => decide (p.1 = p.2)),
       (segPairs l).countP (fun p => decide (p.1 ≠ p.2))) := by
  unfold frames_to_segments segPairs
  rcases hd : dedupSort l with _ | ⟨f, rest⟩
  · simp
  · exact segLoop_eq rest f f

/- ## Lemmas: whitespace splitting and stripping -/

theorem splitWsAux_eq_nil (s : Str) : ∀ cur : Str,
    splitWsAux cur s = [] ↔ cur = [] ∧ ∀ c ∈ s, isSpace c = true := by
  induction s with
  | nil =>
    intro cur
    simp only [splitWsAux]
    by_cases h : cur.isEmpty
    · rw [if_pos h]
      simp [List.isEmpty_iff.mp h]
    · rw [if_neg h]
      rw [List.isEmpty_iff] at h
      simp [h]
  | cons c rest ih =>
    intro cur
    simp only [splitWsAux]
    by_cases hc : isSpace c
    · rw [if_pos hc]
      by_cases hcur : cur.isEmpty
      · rw [if_pos hcur, ih []]
        simp [List.isEmpty_iff.mp hcur, hc]
      · rw [if_neg hcur]
        rw [List.isEmpty_iff] at hcur
        simp [hcur]
    · rw [if_neg hc, ih (c :: cur)]
      simp [hc]

theorem pySplitWs_eq_nil (s : Str) :
    pySplitWs s = [] ↔ ∀ c ∈ s, isSpace c = true := by
  rw [pySplitWs, splitWsAux_eq_nil]
  simp

theorem pySplitWs_ne_nil (line : Str) :
    pySplitWs line ≠ [] ↔ ∃ c ∈ line, isSpace c = false := by
  rw [ne_eq, pySplitWs_eq_nil]
  simp

theorem dropWhile_head_false {α : Type} {p : α → Bool} :
    ∀ {s : List α} {c : α} {t : List α}, s.dropWhile p = c :: t → p c = false := by
  intro s
  induction s with
  | nil => intro c t h; simp [List.dropWhile] at h
  | cons a rest ih =>
    intro c t h
    rw [List.dropWhile_cons] at h
    by_cases ha : p a
    · rw [if_pos ha] at h
      exact ih h
    · rw [if_neg ha] at h
      cases h
      simpa using ha

theorem pyStrip_has_nonspace {raw : Str} (h : pyStrip raw ≠ []) :
    ∃ c ∈ pyStrip raw, isSpace c = false := by
  unfold pyStrip at *
  rcases hu : ((raw.dropWhile isSpace).reverse).dropWhile isSpace with _ | ⟨c, t⟩
  · rw [hu] at h
    simp at h
  · exact ⟨c, by simp, dropWhile_head_false hu⟩

theorem parse_baselight_line_isSome (line : Str) :
    (parse_baselight_line line).isSome = true ↔ pySplitWs line ≠ [] := by
  unfold parse_baselight_line
  rcases hs : pySplitWs line with _ | ⟨folder, rest⟩ <;> simp

theorem parse_baselight_line_cons {line folder : Str} {rest : List Str}
    (h : pySplitWs line = folder :: rest) :
    parse_baselight_line line = some (folder, rest.filterMap tokenToFrame) := by
  unfold parse_baselight_line
  rw [h]

/- ## Lemmas: find? returns the first match -/

theorem find?_eq_some_split {α : Type} {p : α → Bool} :
    ∀ {l : List α} {x : α}, l.find? p = some x →
      p x = true ∧ ∃ l₁ l₂, l = l₁ ++ x :: l₂ ∧ ∀ y ∈ l₁, p y = false := by
  intro l
  induction l with
  | nil => intro x h; simp at h
  | cons a rest ih =>
    intro x h
    rw [List.find?_cons] at h
    cases ha : p a
    · rw [ha] at h
      obtain ⟨hx, l₁, l₂, rfl, hall⟩ := ih h
      refine ⟨hx, a :: l₁, l₂, rfl, ?_⟩
      intro y hy
      rcases List.mem_cons.mp hy with rfl | hy'
      · exact ha
      · exact hall y hy'
    · rw [ha] at h
      cases h
      exact ⟨ha, [], rest, rfl, by simp⟩

/- ## Lemmas: Location Directory Parser -/

theorem isPrefixOf_cons_exists {a : Char} {l₁ l₂ : Str}
    (h : (a :: l₁).isPrefixOf l₂ = true) : ∃ t, l₂ = a :: t := by
  rw [ List.isPrefixOf_iff_prefix] at h
  cases l₂ with
  | nil => exact absurd h (by simp)
  | cons b t =>
    rw [List.cons_prefix_cons] at h
    exact ⟨t, by rw [h.1]⟩

theorem lowerStr_cons (c : Char) (t : Str) :
    lowerStr (c :: t) = Char.toLower c :: lowerStr t := rfl

/-- A blank (stripped-empty) line is neither a header, a notes line, nor a
slash line. -/
theorem blank_line_class {raw : Str} (h : pyStrip raw = []) :
    isLocHeaderLine raw = false ∧ isNotesLine raw = false ∧ isSlashLine raw = false := by
  unfold isLocHeaderLine isNotesLine isSlashLine
  rw [h]
  exact ⟨by decide, by decide, by decide⟩

/-- A `location` header line is neither a notes line nor a slash line. -/
theorem locHeader_line_class {raw : Str} (h : isLocHeaderLine raw = true) :
    isNotesLine raw = false ∧ isSlashLine raw = false := by
  unfold isLocHeaderLine at h
  have hloc : locTok = 'l' :: strOf "ocation" := by decide
  rw [hloc] at h
  obtain ⟨t, ht⟩ := isPrefixOf_cons_exists h
  rcases hs : pyStrip raw with _ | ⟨c, s⟩
  · rw [hs] at ht
    simp [lowerStr] at ht
  · rw [hs] at ht
    rw [lowerStr_cons] at ht
    have hc : Char.toLower c = 'l' := by
      simp only [List.cons.injEq] at ht
      exact ht.1
    constructor
    · unfold isNotesLine
      rw [hs, lowerStr_cons, hc]
      have hn : notesTok = 'n' :: strOf "otes" := by decide
      rw [hn]
      cases hp : (('n' :: strOf "otes").isPrefixOf ('l' :: lowerStr s)) with
      | false => rfl
      | true =>
        obtain ⟨t', ht'⟩ := isPrefixOf_cons_exists hp
        simp at ht'
    · unfold isSlashLine
      rw [hs]
      cases hp : ((strOf "/").isPrefixOf (c :: s)) with
      | false => rfl
      | true =>
        have hsl : strOf "/" = '/' :: ([] : Str) := by decide
        rw [hsl] at hp
        obtain ⟨t', ht'⟩ := isPrefixOf_cons_exists hp
        have hcs : c = '/' := by injection ht'
        rw [hcs] at hc
        exact absurd hc (by decide)

/-- A slash line is neither a notes line nor a header line, and is nonblank. -/
theorem slash_line_class {raw : Str} (h : isSlashLine raw = true) :
    isNotesLine raw = false ∧ isLocHeaderLine raw = false ∧ pyStrip raw ≠ [] := by
  unfold isSlashLine at h
  have hsl : strOf "/" = '/' :: ([] : Str) := by decide
  rw [hsl] at h
  obtain ⟨t, ht⟩ := isPrefixOf_cons_exists h
  refine ⟨?_, ?_, by rw [ht]; simp⟩
  · unfold isNotesLine
    rw [ht, lowerStr_cons]
    have : Char.toLower '/' = '/' := by decide
    rw [this]
    have hn : notesTok = 'n' :: strOf "otes" := by decide
    rw [hn]
    cases hp : (('n' :: strOf "otes").isPrefixOf ('/' :: lowerStr t)) with
    | false => rfl
    | true =>
      obtain ⟨t', ht'⟩ := isPrefixOf_cons_exists hp
      simp at ht'
  · unfold isLocHeaderLine
    rw [ht, lowerStr_cons]
    have : Char.toLower '/' = '/' := by decide
    rw [this]
    have hl : locTok = 'l' :: strOf "ocation" := by decide
    rw [hl]
    cases hp : (('l' :: strOf "ocation").isPrefixOf ('/' :: lowerStr t)) with
    | false => rfl
    | true =>
      obtain ⟨t', ht'⟩ := isPrefixOf_cons_exists hp
      simp at ht'

theorem locationsGo_collecting (lines : List Str) :
    locationsGo lines true =
      ((lines.takeWhile (fun r => !isNotesLine r)).filter isSlashLine).map pyStrip := by
  induction lines with
  | nil => simp [locationsGo]
  | cons raw rest ih =>
    simp only [locationsGo]
    by_cases hb : (pyStrip raw).isEmpty
    · rw [if_pos hb]
      obtain ⟨_, hn, hs⟩ := blank_line_class (List.isEmpty_iff.mp hb)
      rw [List.takeWhile_cons, hn]
      simp only [Bool.not_false, if_pos]
      rw [List.filter_cons, hs]
      simpa using ih
    · rw [if_neg hb]
      by_cases hh : locTok.isPrefixOf (lowerStr (pyStrip raw))
      · rw [if_pos hh]
        have hh' : isLocHeaderLine raw = true := hh
        obtain ⟨hn, hs⟩ := locHeader_line_class hh'
        rw [List.takeWhile_cons, hn]
        simp only [Bool.not_false, if_pos]
        rw [List.filter_cons, hs]
        simpa using ih
      · rw [if_neg hh]
        by_cases hnt : notesTok.isPrefixOf (lowerStr (pyStrip raw))
        · rw [if_pos hnt]
          have hn : isNotesLine raw = true := hnt
          rw [List.takeWhile_cons, hn]
          simp
        · rw [if_neg hnt]
          have hn : isNotesLine raw = false := by
            unfold isNotesLine
            exact Bool.eq_false_iff.mpr hnt
          rw [List.takeWhile_cons, hn]
          simp only [Bool.not_false, if_pos]
          by_cases hsl : (strOf "/").isPrefixOf (pyStrip raw)
          · rw [if_pos hsl]
            have hs : isSlashLine raw = true := hsl
            rw [List.filter_cons, hs]
            simp only [if_pos]
            rw [List.map_cons, ih]
          · rw [if_neg hsl]
            have hs : isSlashLine raw = false := by
              unfold isSlashLine
              exact Bool.eq_false_iff.mpr hsl
            rw [List.filter_cons, hs]
            simpa using ih

theorem locationsGo_scanning (lines : List Str) :
    locationsGo lines false = locationsSpec lines := by
  induction lines with
  | nil => simp [locationsGo, locationsSpec]
  | cons raw rest ih =>
    simp only [locationsGo, locationsSpec]
    by_cases hb : (pyStrip raw).isEmpty
    · rw [if_pos hb]
      obtain ⟨hl, _, _⟩ := blank_line_class (List.isEmpty_iff.mp hb)
      rw [List.dropWhile_cons, hl]
      simpa [locationsSpec] using ih
    · rw [if_neg hb]
      by_cases hh : locTok.isPrefixOf (lowerStr (pyStrip raw))
      · rw [if_pos hh]
        have hl : isLocHeaderLine raw = true := hh
        rw [List.dropWhile_cons, hl]
        simp only [Bool.not_true, if_neg Bool.false_ne_true]
        exact locationsGo_collecting rest
      · rw [if_neg hh]
        have hl : isLocHeaderLine raw = false := by
          unfold isLocHeaderLine
          exact Bool.eq_false_iff.mpr hh
        rw [List.dropWhile_cons, hl]
        simpa [locationsSpec] using ih

theorem parse_xytech_eq_spec (lines : List Str) :
    parse_xytech_locations lines = locationsSpec lines :=
  locationsGo_scanning lines

/-- Every collected Location starts with a slash. -/
theorem parse_xytech_mem_slash {lines : List Str} {loc : Str}
    (h : loc ∈ parse_xytech_locations lines) : ∃ t, loc = '/' :: t := by
  rw [parse_xytech_eq_spec] at h
  unfold locationsSpec at h
  rcases hd : lines.dropWhile (fun r => !isLocHeaderLine r) with _ | ⟨x, rest⟩
  · rw [hd] at h
    simp at h
  · rw [hd] at h
    simp only [List.mem_map, List.mem_filter] at h
    obtain ⟨raw, ⟨_, hs⟩, rfl⟩ := h
    unfold isSlashLine at hs
    have hsl : strOf "/" = '/' :: ([] : Str) := by decide
    rw [hsl] at hs
    exact isPrefixOf_cons_exists hs

/- ## Lemmas: Frame Aggregator -/

theorem upsert_keys_mem {tbl : List (Str × List Int)} {k : Str} (fs : List Int)
    (h : k ∈ tbl.map Prod.fst) :
    (upsertFrames tbl k fs).map Prod.fst = tbl.map Prod.fst := by
  induction tbl with
  | nil => simp at h
  | cons kv rest ih =>
    obtain ⟨k', v⟩ := kv
    simp only [upsertFrames]
    by_cases hk : k' = k
    · rw [if_pos hk]
      simp
    · rw [if_neg hk]
      simp only [List.map_cons]
      congr 1
      refine ih ?_
      simp only [List.map_cons, List.mem_cons] at h
      rcases h with h1 | h2
      · exact absurd h1.symm hk
      · exact h2

theorem upsert_keys_new {tbl : List (Str × List Int)} {k : Str} (fs : List Int)
    (h : k ∉ tbl.map Prod.fst) :
    (upsertFrames tbl k fs).map Prod.fst = tbl.map Prod.fst ++ [k] := by
  induction tbl with
  | nil => simp [upsertFrames]
  | cons kv rest ih =>
    obtain ⟨k', v⟩ := kv
    simp only [upsertFrames]
    by_cases hk : k' = k
    · exact absurd (by simp [hk]) h
    · rw [if_neg hk]
      simp only [List.map_cons, List.cons_append]
      congr 1
      exact ih (fun hmem => h (by simp [hmem]))

theorem firstSeenFrom_congr : ∀ (ks : List Str) (s₁ s₂ : List Str),
    (∀ x, x ∈ s₁ ↔ x ∈ s₂) → firstSeenFrom s₁ ks = firstSeenFrom s₂ ks := by
  intro ks
  induction ks with
  | nil => intro _ _ _; rfl
  | cons k t ih =>
    intro s₁ s₂ hs
    simp only [firstSeenFrom]
    by_cases hk : k ∈ s₁
    · rw [if_pos hk, if_pos ((hs k).mp hk)]
      exact ih s₁ s₂ hs
    · rw [if_neg hk, if_neg (fun hx => hk ((hs k).mpr hx))]
      rw [ih (k :: s₁) (k :: s₂) (by intro x; simp [hs x])]

theorem processLine_blank {xyLocs : List Str} {tbl : List (Str × List Int)}
    {raw : Str} (hb : (pyStrip raw).isEmpty = true) :
    processLine xyLocs tbl raw = some tbl := by
  unfold processLine
  rw [if_pos hb]

theorem processLine_nonblank {xyLocs : List Str} {tbl : List (Str × List Int)}
    {raw folder : Str} {toks : List Str}
    (hb : (pyStrip raw).isEmpty = false)
    (hsp : pySplitWs (pyStrip raw) = folder :: toks) :
    processLine xyLocs tbl raw =
      some (upsertFrames tbl (keyOf xyLocs (pyStrip raw)) (toks.filterMap tokenToFrame)) := by
  unfold processLine
  rw [if_neg (by simp [hb]), parse_baselight_line_cons hsp]
  unfold keyOf
  rw [hsp]
  rfl

theorem splitWs_strip_cons {raw : Str} (hb : (pyStrip raw).isEmpty = false) :
    ∃ folder toks, pySplitWs (pyStrip raw) = folder :: toks := by
  have hne : pyStrip raw ≠ [] := by
    intro h
    rw [h] at hb
    simp at hb
  have h2 := (pySplitWs_ne_nil (pyStrip raw)).mpr (pyStrip_has_nonspace hne)
  rcases h : pySplitWs (pyStrip raw) with _ | ⟨f, t⟩
  · exact absurd h h2
  · exact ⟨f, t, rfl⟩

theorem aggregate_keys_aux (xyLocs : List Str) :
    ∀ (lines : List Str) (tbl : List (Str × List Int)),
    ∃ tbl', lines.foldl (fun acc raw => acc.bind (fun t => processLine xyLocs t raw))
        (some tbl) = some tbl' ∧
      tbl'.map Prod.fst =
        tbl.map Prod.fst ++ firstSeenFrom (tbl.map Prod.fst) (keySeq xyLocs lines) := by
  intro lines
  induction lines with
  | nil =>
    intro tbl
    exact ⟨tbl, rfl, by simp [keySeq, firstSeenFrom]⟩
  | cons raw rest ih =>
    intro tbl
    simp only [List.foldl_cons, Option.some_bind]
    by_cases hb : (pyStrip raw).isEmpty
    · rw [processLine_blank hb]
      obtain ⟨tbl', h1, h2⟩ := ih tbl
      refine ⟨tbl', h1, ?_⟩
      rw [h2]
      congr 2
      unfold keySeq
      simp [hb]
    · rw [Bool.not_eq_true] at hb
      obtain ⟨folder, toks, hsp⟩ := splitWs_strip_cons hb
      rw [processLine_nonblank hb hsp]
      have hkeyseq : keySeq xyLocs (raw :: rest) =
          keyOf xyLocs (pyStrip raw) :: keySeq xyLocs rest := by
        unfold keySeq
        simp [hb]
      by_cases hk : keyOf xyLocs (pyStrip raw) ∈ tbl.map Prod.fst
      · obtain ⟨tbl', h1, h2⟩ := ih (upsertFrames tbl (keyOf xyLocs (pyStrip raw))
          (toks.filterMap tokenToFrame))
        refine ⟨tbl', h1, ?_⟩
        rw [h2, upsert_keys_mem _ hk, hkeyseq]
        congr 1
        rw [firstSeenFrom, if_pos hk]
      · obtain ⟨tbl', h1, h2⟩ := ih (upsertFrames tbl (keyOf xyLocs (pyStrip raw))
          (toks.filterMap tokenToFrame))
        refine ⟨tbl', h1, ?_⟩
        rw [h2, upsert_keys_new _ hk, hkeyseq, List.append_assoc]
        congr 1
        rw [firstSeenFrom, if_neg hk]
        simp only [List.singleton_append, List.cons.injEq, true_and]
        exact firstSeenFrom_congr _ _ _ (by intro x; simp [or_comm])

theorem aggregate_keys (xyLocs : List Str) (lines : List Str) :
    ∃ tbl, aggregate xyLocs lines = some tbl ∧
      tbl.map Prod.fst = firstSeen (keySeq xyLocs lines) := by
  obtain ⟨tbl, h1, h2⟩ := aggregate_keys_aux xyLocs lines []
  exact ⟨tbl, h1, by simpa [firstSeen] using h2⟩

/- ## Lemmas: Annotation Scanner -/

theorem scanGo_enumFrom : ∀ (rows : List (List Str)) (n : Nat),
    scanGo rows n = (List.enumFrom n rows).filter (fun p => markedRow p.2) := by
  intro rows
  induction rows with
  | nil => intro n; rfl
  | cons r rest ih =>
    intro n
    simp only [scanGo, List.enumFrom, List.filter_cons]
    by_cases h : markedRow r
    · rw [if_pos h, ih]
      simp [h]
    · rw [if_neg h, ih]
      simp [h]

theorem segPairs_succ_not_mem {l : List Int} {p : Int × Int} (hp : p ∈ segPairs l) :
    p.2 + 1 ∉ l := by
  intro hmem
  obtain ⟨q, hq, hq1, hq2⟩ := mem_segPairs_cover.mp hmem
  have hple := segPairs_le l p hp
  have hqle := segPairs_le l q hq
  rcases pairwise_mem_or (segPairs_sep l) hp hq with rfl | h | h
  · omega
  · omega
  · omega

theorem segPairs_pred_not_mem {l : List Int} {p : Int × Int} (hp : p ∈ segPairs l) :
    p.1 - 1 ∉ l := by
  intro hmem
  obtain ⟨q, hq, hq1, hq2⟩ := mem_segPairs_cover.mp hmem
  have hple := segPairs_le l p hp
  have hqle := segPairs_le l q hq
  rcases pairwise_mem_or (segPairs_sep l) hp hq with rfl | h | h
  · omega
  · omega
  · omega

/-- Completeness of the coalescing pass: every maximal contiguous run of input
values, given by its endpoints, appears among the emitted segment pairs. -/
theorem segPairs_maximal_run_mem {l : List Int} {a b : Int}
    (hab : a ≤ b) (hsub : ∀ v : Int, a ≤ v → v ≤ b → v ∈ l)
    (hpred : (a - 1) ∉ l) (hsucc : (b + 1) ∉ l) :
    (a, b) ∈ segPairs l := by
  have ha : a ∈ l := hsub a (le_refl a) hab
  obtain ⟨p, hp, h1, h2⟩ := mem_segPairs_cover.mp ha
  have hple := segPairs_le l p hp
  have hcov : ∀ v : Int, p.1 ≤ v → v ≤ p.2 → v ∈ l := fun v hv1 hv2 =>
    mem_segPairs_cover.mpr ⟨p, hp, hv1, hv2⟩
  have hp1 : p.1 = a := by
    by_contra hne
    have hlt : p.1 < a := lt_of_le_of_ne h1 hne
    exact hpred (hcov (a - 1) (by omega) (by omega))
  have hp2 : p.2 = b := by
    rcases lt_trichotomy p.2 b with hlt | heq | hgt
    · exact absurd (hsub (p.2 + 1) (by omega) (by omega)) (segPairs_succ_not_mem hp)
    · exact heq
    · exact absurd (hcov (b + 1) (by omega) (by omega)) hsucc
  have hpab : p = (a, b) := Prod.ext_iff.mpr ⟨hp1, hp2⟩
  rw [← hpab]
  exact hp

/-- Uniqueness of the emitted segment for a maximal contiguous run: the run's
endpoint pair occurs exactly once among the emitted segment pairs. -/
theorem segPairs_run_count_one {l : List Int} {a b : Int}
    (hab : a ≤ b) (hsub : ∀ v : Int, a ≤ v → v ≤ b → v ∈ l)
    (hpred : (a - 1) ∉ l) (hsucc : (b + 1) ∉ l) :
    (segPairs l).countP (fun p => decide (p = (a, b))) = 1 := by
  have hmem := segPairs_maximal_run_mem hab hsub hpred hsucc
  have hpos : 0 < (segPairs l).countP (fun p => decide (p = (a, b))) := by
    rw [List.countP_pos_iff]
    exact ⟨(a, b), hmem, by simp⟩
  have hle : (segPairs l).countP (fun p => decide (p = (a, b))) ≤ 1 := by
    refine countP_le_one_of_pairwise ((segPairs_sep l).imp ?_)
    intro p q hpq hcon
    obtain ⟨h1, h2⟩ := hcon
    simp only [decide_eq_true_eq] at h1 h2
    subst h1
    subst h2
    simp only [] at hpq
    omega
  omega

/- ## Claim theorems -/

/-- C1: Range Compressor round-trip law: each emitted segment's endpoints are
values present in the input; every input value lies within exactly one emitted
segment; the segments are emitted in strictly increasing order of their start
values; expanding all segments back into integers reproduces exactly the
deduplicated, ascending-sorted input; and the emitted strings are exactly the
renderings of these numeric segments. -/
theorem C1_range_compressor_roundtrip (l : List Int) :
    (∀ p ∈ segPairs l, p.1 ∈ l ∧ p.2 ∈ l)
    ∧ (∀ v ∈ l, (segPairs l).countP (fun p => decide (p.1 ≤ v ∧ v ≤ p.2)) = 1)
    ∧ ((segPairs l).map Prod.fst).Sorted (· < ·)
    ∧ ((segPairs l).map expandP).flatten = dedupSort l
    ∧ (dedupSort l).Sorted (· < ·)
    ∧ (∀ v : Int, v ∈ dedupSort l ↔ v ∈ l)
    ∧ (frames_to_segments l).1 = (segPairs l).map renderSeg := by
  refine ⟨?_, ?_, segPairs_starts_sorted l, segPairs_expand l, sorted_dedupSort l,
    mem_dedupSort l, by rw [frames_to_segments_eq]⟩
  · intro p hp
    have hle := segPairs_le l p hp
    exact ⟨mem_segPairs_cover.mpr ⟨p, hp, le_refl _, hle⟩,
      mem_segPairs_cover.mpr ⟨p, hp, hle, le_refl _⟩⟩
  · intro v hv
    exact segPairs_count_one hv

/-- C3: Range Compressor segment construction: the empty input yields an empty
segment list with both counts zero; every emitted numeric segment is a maximal
contiguous run of input values; conversely every maximal contiguous run of
input values is emitted as exactly one segment; the rendered string is the
single value for a run of length one and start-end otherwise; and the two
counters count exactly the single segments and the range segments. -/
theorem C3_segment_construction (l : List Int) :
    frames_to_segments [] = ([], 0, 0)
    ∧ (∀ p ∈ segPairs l, p.1 ≤ p.2 ∧ (∀ v : Int, p.1 ≤ v → v ≤ p.2 → v ∈ l)
        ∧ p.1 - 1 ∉ l ∧ p.2 + 1 ∉ l)
    ∧ (∀ a b : Int, a ≤ b → (∀ v : Int, a ≤ v → v ≤ b → v ∈ l) →
        (a - 1) ∉ l → (b + 1) ∉ l →
        (segPairs l).countP (fun p => decide (p = (a, b))) = 1)
    ∧ (frames_to_segments l).1 = (segPairs l).map
        (fun p => if p.1 = p.2 then pyStrInt p.1 else rangeStr p.1 p.2)
    ∧ (frames_to_segments l).2.1 = (segPairs l).countP (fun p => decide (p.1 = p.2))
    ∧ (frames_to_segments l).2.2 = (segPairs l).countP (fun p => decide (p.1 ≠ p.2)) := by
  refine ⟨by simp [frames_to_segments, dedupSort], ?_, ?_, ?_, ?_, ?_⟩
  · intro p hp
    refine ⟨segPairs_le l p hp, ?_, segPairs_pred_not_mem hp, segPairs_succ_not_mem hp⟩
    intro v h1 h2
    exact mem_segPairs_cover.mpr ⟨p, hp, h1, h2⟩
  · intro a b hab hsub hpred hsucc
    exact segPairs_run_count_one hab hsub hpred hsucc
  · rw [frames_to_segments_eq]
    rfl
  · rw [frames_to_segments_eq]
  · rw [frames_to_segments_eq]

/-- C2: Path Reconciler: `map_to_xytech` returns the first Location, in the
list's original order, whose string ends with the derived subpath, and `none`
when no Location has that suffix; the derived subpath drops the first two
slash-split components (rejoined with a leading slash) when the path has at
least 3 components and the second begins with the filesystem-root token, and
otherwise drops only the first component. -/
theorem C2_path_reconciler (folder : Str) (locs : List Str) :
    (∀ loc, map_to_xytech folder locs = some loc →
      strEndsWith loc (baselight_subpath folder) = true ∧
      ∃ l₁ l₂, locs = l₁ ++ loc :: l₂ ∧
        ∀ y ∈ l₁, strEndsWith y (baselight_subpath folder) = false)
    ∧ (map_to_xytech folder locs = none ↔
        ∀ loc ∈ locs, strEndsWith loc (baselight_subpath folder) = false)
    ∧ baselight_subpath folder =
        (if 3 ≤ (splitSlash (pyStrip folder)).length ∧
            rootTok.isPrefixOf ((splitSlash (pyStrip folder)).getD 1 []) = true then
          '/' :: joinSlash ((splitSlash (pyStrip folder)).drop 2)
        else
          '/' :: joinSlash ((splitSlash (pyStrip folder)).drop 1)) := by
  refine ⟨?_, ?_, ?_⟩
  · intro loc h
    unfold map_to_xytech at h
    exact find?_eq_some_split h
  · unfold map_to_xytech
    rw [List.find?_eq_none]
    constructor
    · intro h loc hloc
      exact Bool.eq_false_iff.mpr (h loc hloc)
    · intro h loc hloc
      rw [h loc hloc]
      simp
  · simp only [baselight_subpath]
    by_cases h1 : 3 ≤ (splitSlash (pyStrip folder)).length
    · by_cases h2 : rootTok.isPrefixOf ((splitSlash (pyStrip folder)).getD 1 []) = true
      · rw [if_pos (by simp only [Bool.and_eq_true, decide_eq_true_eq]; exact ⟨h1, h2⟩),
          if_pos ⟨h1, h2⟩]
      · rw [if_neg (show ¬((decide (3 ≤ (splitSlash (pyStrip folder)).length) &&
            rootTok.isPrefixOf ((splitSlash (pyStrip folder)).getD 1 [])) = true) by
            simp only [Bool.and_eq_true, decide_eq_true_eq]; exact fun hc => h2 hc.2),
          if_neg (fun hc => h2 hc.2)]
    · rw [if_neg (show ¬((decide (3 ≤ (splitSlash (pyStrip folder)).length) &&
          rootTok.isPrefixOf ((splitSlash (pyStrip folder)).getD 1 [])) = true) by
          simp only [Bool.and_eq_true, decide_eq_true_eq]; exact fun hc => h1 hc.1),
        if_neg (fun hc => h1 hc.1)]

/-- C4: Location Directory Parser: the scan equals the spec-worded contract
(collect, after the first case-insensitive `location` header, every trimmed
line starting with a slash, verbatim and in order, stopping at the first
case-insensitive `notes` line, skipping blanks), and returns the empty list
when no `location` header line exists. -/
theorem C4_location_directory_scan (lines : List Str) :
    parse_xytech_locations lines = locationsSpec lines
    ∧ ((∀ r ∈ lines, isLocHeaderLine r = false) → parse_xytech_locations lines = []) := by
  refine ⟨parse_xytech_eq_spec lines, ?_⟩
  intro hall
  rw [parse_xytech_eq_spec]
  unfold locationsSpec
  have hd : lines.dropWhile (fun r => !isLocHeaderLine r) = [] := by
    rw [List.dropWhile_eq_nil_iff]
    intro x hx
    simp [hall x hx]
  rw [hd]

/-- C5: Frame Aggregator ordering: the aggregation never fails, and the
sequence of folder keys in the resulting table (hence in the emitted report)
equals the first-occurrence order of the keys of the nonblank facility lines,
never a re-sort. -/
theorem C5_first_seen_order (xyLocs : List Str) (lines : List Str) :
    ∃ tbl, aggregate xyLocs lines = some tbl ∧
      tbl.map Prod.fst = firstSeen (keySeq xyLocs lines) :=
  aggregate_keys xyLocs lines

/-- C6: sentinel-key invariant: a folder that fails reconciliation is keyed by
exactly the two-character sentinel `X` + space concatenated with the unmodified
raw folder path; a reconciled folder is keyed by its matching Location, which
begins with a slash; and no sentinel key equals any parsed Location. -/
theorem C6_sentinel_invariant (xyLines : List Str) (bFolder raw : Str) :
    (map_to_xytech bFolder (parse_xytech_locations xyLines) = none →
      outFolderKey (parse_xytech_locations xyLines) bFolder = 'X' :: ' ' :: bFolder)
    ∧ (∀ loc, map_to_xytech bFolder (parse_xytech_locations xyLines) = some loc →
      outFolderKey (parse_xytech_locations xyLines) bFolder = loc ∧ ∃ t, loc = '/' :: t)
    ∧ (∀ loc ∈ parse_xytech_locations xyLines, 'X' :: ' ' :: raw ≠ loc) := by
  refine ⟨?_, ?_, ?_⟩
  · intro h
    unfold outFolderKey
    rw [h]
  · intro loc h
    constructor
    · unfold outFolderKey
      rw [h]
    · unfold map_to_xytech at h
      obtain ⟨_, l₁, l₂, heq, _⟩ := find?_eq_some_split h
      exact parse_xytech_mem_slash (by rw [heq]; simp)
  · intro loc hloc
    obtain ⟨t, rfl⟩ := parse_xytech_mem_slash hloc
    simp

/-- C7: Frame Record Parser: on a line whose whitespace split is nonempty the
first token is the folder and each later token contributes the value of its
leading decimal-digit run (the whole token when purely digits), tokens with no
leading digit being dropped; in particular token 0010.dpx yields 10 and token
frame yields nothing. -/
theorem C7_frame_record_tokens (line : Str) :
    (∀ folder rest, pySplitWs line = folder :: rest →
      parse_baselight_line line = some (folder, rest.filterMap tokenToFrame))
    ∧ (∀ tok : Str, tokenToFrame tok =
        match tok.takeWhile Char.isDigit with
        | [] => none
        | ds => some ((digitsToNat ds : Nat) : Int))
    ∧ tokenToFrame (strOf "0010.dpx") = some 10
    ∧ tokenToFrame (strOf "frame") = none := by
  refine ⟨?_, ?_, by decide, by decide⟩
  · intro folder rest h
    exact parse_baselight_line_cons h
  · intro tok
    unfold tokenToFrame
    by_cases hd : pyIsDigit tok = true
    · rw [if_pos hd]
      unfold pyIsDigit at hd
      rw [Bool.and_eq_true] at hd
      have hall : ∀ c ∈ tok, Char.isDigit c = true := by
        intro c hc
        exact List.all_eq_true.mp hd.2 c hc
      have htw : tok.takeWhile Char.isDigit = tok := List.takeWhile_eq_self_iff.mpr hall
      rw [htw]
      rcases tok with _ | ⟨c, t⟩
      · simp at hd
      · rfl
    · rw [if_neg hd]

/-- C8: Annotation Scanner matching: after the header row the scanner reports
exactly the subsequent rows with at least three columns whose third column
trims and uppercases to `X`, each paired with its 1-based line number (the
header being line 1); rows with fewer than three columns never match; a
lowercase third-column marker with surrounding whitespace matches; and on the
spec's three-row example exactly rows 3 and 4 are reported. -/
theorem C8_annotation_scan (hdr : List Str) (rows : List (List Str))
    (p1 p2 p3 s1 s2 s3 : Str) :
    scanMarked (hdr :: rows) = (List.enumFrom 2 rows).filter (fun p => markedRow p.2)
    ∧ (∀ row : List Str, markedRow row = true ↔
        3 ≤ row.length ∧ upperStr (pyStrip (row.getD 2 [])) = strOf "X")
    ∧ (∀ row : List Str, row.length < 3 → markedRow row = false)
    ∧ scanMarked [hdr, [p1, s1, []], [p2, s2, strOf "X"], [p3, s3, strOf " x "]] =
        [(3, [p2, s2, strOf "X"]), (4, [p3, s3, strOf " x "])] := by
  refine ⟨scanGo_enumFrom rows 2, ?_, ?_, ?_⟩
  · intro row
    unfold markedRow
    simp [Bool.and_eq_true, decide_eq_true_eq]
  · intro row h
    unfold markedRow
    rw [decide_eq_false (by omega)]
    rfl
  · rfl

/-- C9: Annotation Scanner missing-file handling: with the marked file absent
the scanner reports the missing-file condition and returns normally without
inspecting any content, the whole run still succeeds; by contrast a missing
primary input (studio or facility export) is fatal to the run. -/
theorem C9_missing_marked_file (rows rows2 : List (List Str))
    (xyLines blLines : List Str) (marked : List (List Str)) (mEx : Bool) :
    print_rows_model false rows = ScanResult.missing
    ∧ print_rows_model false rows = print_rows_model false rows2
    ∧ (∃ out, mainModel true xyLines true blLines false marked =
        Except.ok (out, ScanResult.missing))
    ∧ mainModel true xyLines false blLines mEx marked = Except.error ()
    ∧ mainModel false xyLines true blLines mEx marked = Except.error () := by
  refine ⟨rfl, rfl, ?_, rfl, rfl⟩
  obtain ⟨tbl, h1, _⟩ := aggregate_keys (parse_xytech_locations xyLines) blLines
  refine ⟨reportRows tbl, ?_⟩
  change (match aggregate (parse_xytech_locations xyLines) blLines with
    | none => Except.error ()
    | some tbl => Except.ok (reportRows tbl, print_rows_model false marked)) =
    Except.ok (reportRows tbl, ScanResult.missing)
  rw [h1]
  rfl

/-- C10: implicit precondition of the Frame Record Parser: the unguarded first
token access succeeds exactly when the line has a non-whitespace character (on
a blank or whitespace-only line it fails), and the main loop establishes this
precondition by skipping stripped-empty lines before parsing. -/
theorem C10_parser_precondition (line : Str) (xyLocs : List Str)
    (tbl : List (Str × List Int)) :
    ((parse_baselight_line line).isSome = true ↔ ∃ c ∈ line, isSpace c = false)
    ∧ (pyStrip line = [] → processLine xyLocs tbl line = some tbl)
    ∧ (pyStrip line ≠ [] → (parse_baselight_line (pyStrip line)).isSome = true) := by
  refine ⟨?_, ?_, ?_⟩
  · rw [parse_baselight_line_isSome, pySplitWs_ne_nil]
  · intro h
    exact processLine_blank (by rw [h]; rfl)
  · intro h
    rw [parse_baselight_line_isSome, pySplitWs_ne_nil]
    exact pyStrip_has_nonspace h

end Project1
